import Mathlib

/-!
Shallow embedding of the feed-synchronization core of the `rssbot`
repository (src/scheduler/tasks.rs, src/util/parser.rs, src/cmd/sync.rs,
src/data/mod.rs, src/data/models.rs), with theorems settling the frozen
claims about its specification.

Modelling conventions:
* Rust `String` values are Lean `String`s; Rust's byte-wise lexicographic
  string comparison is modelled by `bytesLt` over the character sequence
  (all strings compared by the program are ASCII RFC3339 timestamps, for
  which the two coincide).
* `chrono::DateTime<Utc>` values are modelled as `Nat` seconds since the
  Unix epoch (the feed dates the program handles are post-1970,
  second-precision UTC instants); `to_rfc3339` and `format("%Y-%m-%d")`
  are implemented concretely below via the standard civil-from-days
  calendar algorithm.
* Effectful steps (HTTP delivery, the database write, the `tokio` mutex)
  are made explicit parameters: the outcome of each delivery attempt is
  an input, and the cycle lock's state is an input boolean.
-/

/-- Byte-wise lexicographic strict order on character sequences, modelling
Rust's `Ord for str` (bytewise comparison); on the ASCII strings the
program compares the per-character comparison coincides with the
per-byte one. -/
def bytesLt : List Char → List Char → Bool
  | [], [] => false
  | [], _ :: _ => true
  | _ :: _, [] => false
  | a :: as, b :: bs =>
    if a.toNat < b.toNat then true
    else if b.toNat < a.toNat then false
    else bytesLt as bs

/-- Models the Rust expression `a > b` on `String`s. -/
def strGt (a b : String) : Bool := bytesLt b.data a.data

/-- Zero-pads the decimal rendering of `n` to at least `w` digits, as
chrono's `%m`/`%d`/`%H`/`%M`/`%S`/`%Y` field formatting does. -/
def padNum (w n : Nat) : String :=
  let s := toString n
  String.mk (List.replicate (w - s.length) '0') ++ s

/-- Civil date (year, month, day) of a day count since 1970-01-01,
the standard Gregorian-calendar algorithm used to model chrono's
date rendering for post-epoch instants. -/
def civilFromDays (z : Nat) : Nat × Nat × Nat :=
  let z := z + 719468
  let era := z / 146097
  let doe := z % 146097
  let yoe := (doe - doe / 1460 + doe / 36524 - doe / 146096) / 365
  let y := yoe + era * 400
  let doy := doe - (365 * yoe + yoe / 4 - yoe / 100)
  let mp := (5 * doy + 2) / 153
  let d := doy - (153 * mp + 2) / 5 + 1
  let m := if mp < 10 then mp + 3 else mp - 9
  (if m ≤ 2 then y + 1 else y, m, d)

/-- Models `pub_date.format("%Y-%m-%d").to_string()` on a UTC instant
given as seconds since the epoch. -/
def formatDay (t : Nat) : String :=
  let c := civilFromDays (t / 86400)
  padNum 4 c.1 ++ "-" ++ padNum 2 c.2.1 ++ "-" ++ padNum 2 c.2.2

/-- Models `chrono::DateTime<Utc>::to_rfc3339` on a whole-second UTC
instant given as seconds since the epoch. -/
def toRfc3339 (t : Nat) : String :=
  formatDay t ++ "T" ++ padNum 2 (t % 86400 / 3600) ++ ":" ++
    padNum 2 (t % 3600 / 60) ++ ":" ++ padNum 2 (t % 60) ++ "+00:00"

/-- One feed registration row, translated from `Feed` in
src/data/models.rs (`last_item_date` is the watermark, an RFC3339
string option; `webhook_url` the optional managed delivery endpoint). -/
structure DbFeed where
  id : Int
  guild_id : Int
  channel_id : Int
  url : String
  title : Option String
  webhook_url : Option String
  last_updated : String
  last_item_date : Option String
deriving DecidableEq

/-- One parsed feed entry, the projection of `feed_rs::model::Entry`
that src/scheduler/tasks.rs reads: `id`, `title.content`, the link
`href`s, `summary.content`, `content.body`, and the optional
`published`/`updated` instants (seconds since epoch). -/
structure Entry where
  id : String
  title : Option String
  links : List String
  summary : Option String
  content : Option String
  published : Option Nat
  updated : Option Nat
deriving DecidableEq

/-- Models `entry.published.or(entry.updated)`, the effective date. -/
def effDate (e : Entry) : Option Nat := e.published.or e.updated

/-- Left rotation of a 64-bit word represented as a `Nat` below `2 ^ 64`. -/
def rotl64 (x n : Nat) : Nat := ((x <<< n) % (2 ^ 64)) ||| (x >>> (64 - n))

/-- Addition of 64-bit words modulo `2 ^ 64` (Rust wrapping_add). -/
def wadd (a b : Nat) : Nat := (a + b) % (2 ^ 64)

/-- The four 64-bit state words of a SipHash computation. -/
structure SipState where
  v0 : Nat
  v1 : Nat
  v2 : Nat
  v3 : Nat

/-- One SipHash round, translated from the reference SIPROUND used by
Rust's `std::hash::DefaultHasher` (SipHash-1-3). -/
def sipround (s : SipState) : SipState :=
  let v0 := wadd s.v0 s.v1
  let v1 := rotl64 s.v1 13
  let v1 := v1 ^^^ v0
  let v0 := rotl64 v0 32
  let v2 := wadd s.v2 s.v3
  let v3 := rotl64 s.v3 16
  let v3 := v3 ^^^ v2
  let v0 := wadd v0 v3
  let v3 := rotl64 v3 21
  let v3 := v3 ^^^ v0
  let v2 := wadd v2 v1
  let v1 := rotl64 v1 17
  let v1 := v1 ^^^ v2
  let v2 := rotl64 v2 32
  ⟨v0, v1, v2, v3⟩

/-- Little-endian 64-bit word value of a byte list (first byte least
significant), as SipHash loads message blocks. -/
def leWord (bs : List Nat) : Nat := bs.foldr (fun b acc => acc * 256 + b) 0

/-- Absorbs one 64-bit message word: `v3 ^= m`, one round, `v0 ^= m`
(SipHash-1-3 uses a single compression round). -/
def sipCompress (s : SipState) (m : Nat) : SipState :=
  let s := { s with v3 := s.v3 ^^^ m }
  let s := sipround s
  { s with v0 := s.v0 ^^^ m }

/-- Feeds every complete 8-byte block of the message (little-endian)
through the compression, returning the final state together with the
remaining tail of fewer than 8 bytes. -/
def sipBlocks (s : SipState) : List Nat → SipState × List Nat
  | b0 :: b1 :: b2 :: b3 :: b4 :: b5 :: b6 :: b7 :: rest =>
    sipBlocks (sipCompress s (leWord [b0, b1, b2, b3, b4, b5, b6, b7])) rest
  | tail => (s, tail)

/-- SipHash-1-3 with the all-zero key, the algorithm behind
`std::hash::DefaultHasher` (`std::collections::hash_map::DefaultHasher`). -/
def sipHash13 (msg : List Nat) : Nat :=
  let s0 : SipState :=
    ⟨0x736f6d6570736575, 0x646f72616e646f6d, 0x6c7967656e657261, 0x7465646279746573⟩
  let st := sipBlocks s0 msg
  let b := ((msg.length % 256) <<< 56) ||| leWord st.2
  let s := sipCompress st.1 b
  let s := { s with v2 := s.v2 ^^^ 0xff }
  let s := sipround (sipround (sipround s))
  ((s.v0 ^^^ s.v1) ^^^ s.v2) ^^^ s.v3

/-- UTF-8 encoding of one character (the standard 1-4 byte scheme). -/
def utf8Char (c : Char) : List Nat :=
  let n := c.toNat
  if n < 0x80 then [n]
  else if n < 0x800 then [0xC0 ||| (n >>> 6), 0x80 ||| (n &&& 0x3F)]
  else if n < 0x10000 then
    [0xE0 ||| (n >>> 12), 0x80 ||| ((n >>> 6) &&& 0x3F), 0x80 ||| (n &&& 0x3F)]
  else
    [0xF0 ||| (n >>> 18), 0x80 ||| ((n >>> 12) &&& 0x3F),
      0x80 ||| ((n >>> 6) &&& 0x3F), 0x80 ||| (n &&& 0x3F)]

/-- UTF-8 bytes of a string (as naturals), the byte sequence Rust's
`str::as_bytes` exposes. -/
def utf8 (s : String) : List Nat :=
  s.data.foldr (fun c acc => utf8Char c ++ acc) []

/-- Models hashing a Rust `String` with `DefaultHasher` and taking
`finish().to_string()`: `Hash for str` feeds the UTF-8 bytes followed
by a `0xFF` terminator byte. -/
def defaultHashString (s : String) : String :=
  toString (sipHash13 (utf8 s ++ [0xff]))

/-- Drops leading and trailing whitespace from a character list,
modelling `str::trim`. -/
def trimChars (l : List Char) : List Char :=
  ((l.dropWhile Char.isWhitespace).reverse.dropWhile Char.isWhitespace).reverse

/-- Accumulator-passing whitespace splitter over characters. -/
def splitWsAux : List Char → List Char → List (List Char)
  | acc, [] => if acc.isEmpty then [] else [acc.reverse]
  | acc, c :: rest =>
    if c.isWhitespace then
      if acc.isEmpty then splitWsAux [] rest
      else acc.reverse :: splitWsAux [] rest
    else splitWsAux (c :: acc) rest

/-- The maximal non-whitespace runs of a character list, modelling
`str::split_whitespace` (empty words never appear). -/
def splitWs (l : List Char) : List (List Char) := splitWsAux [] l

/-- The title normalization inside `identifier` (src/scheduler/tasks.rs):
trim, lowercase, replace the listed separator characters by spaces,
split on whitespace, keep only words longer than 2 bytes, re-join with
single spaces. -/
def normalizedTitle (t : String) : String :=
  let replaced := ((trimChars t.data).map Char.toLower).map fun c =>
    if c ∈ ['\n', '\r', '\t', ':', '!', '?', '.', ',', ';', '-', '–', '—']
    then ' ' else c
  let kept := (splitWs replaced).filter fun w => 2 < (w.map Char.utf8Size).sum
  String.intercalate " " (kept.map List.asString)

/-- Splits a character list at the first occurrence of `"://"`,
returning the part before and the part after it. -/
def breakScheme : List Char → Option (List Char × List Char)
  | ':' :: '/' :: '/' :: rest => some ([], rest)
  | c :: rest =>
    match breakScheme rest with
    | some (pre, post) => some (c :: pre, post)
    | none => none
  | [] => none

/-- Splits a character list on a separator character, keeping empty
pieces (the semantics of `str::split('/')`). -/
def splitCharAux (sep : Char) : List Char → List Char → List (List Char)
  | acc, [] => [acc.reverse]
  | acc, c :: rest =>
    if c = sep then acc.reverse :: splitCharAux sep [] rest
    else splitCharAux sep (c :: acc) rest

/-- Models `url::Url::parse(href)` followed by `path_segments()` for the
hierarchical (`scheme://host/…`) URLs the feeds carry: `none` means the
parse fails (no nonempty scheme before `"://"`); otherwise the result is
the path split on `/` after the authority, which for such URLs is always
a nonempty list (`[""]` when the path is empty or `/`). -/
def urlPathSegments (href : String) : Option (List String) :=
  match breakScheme href.data with
  | none => none
  | some (scheme, after) =>
    if scheme.isEmpty then none
    else
      match (splitCharAux '/' [] after).tail with
      | [] => some [""]
      | segs => some (segs.map List.asString)

/-- The list of fingerprint parts built by `identifier`
(src/scheduler/tasks.rs lines 206-257): the normalized title when
nonempty, a link part from the first link (joined path segments when the
link parses as a URL and has segments, the raw href when it does not
parse), the feed-native id when nonempty, and the effective date at day
granularity. -/
def identifierParts (e : Entry) : List String :=
  (match e.title with
   | some t =>
     let nt := normalizedTitle t
     if nt ≠ "" then [nt] else []
   | none => []) ++
  (match e.links.head? with
   | some href =>
     match urlPathSegments href with
     | some segs => if segs ≠ [] then [String.intercalate "/" segs] else []
     | none => [href]
   | none => []) ++
  (if e.id ≠ "" then [e.id] else []) ++
  (match effDate e with
   | some d => [formatDay d]
   | none => [])

/-- The `identifier` fingerprint function of src/scheduler/tasks.rs.
`now` models the value of `chrono::Utc::now().timestamp_nanos_opt()`
at the moment of the call; it is consulted only in the all-parts-empty
fallback. Otherwise the fingerprint is the decimal `DefaultHasher`
digest of the parts joined with `"|"`. -/
def identifier (now : Nat) (e : Entry) : String :=
  let parts := identifierParts e
  if parts.isEmpty then "entry_" ++ toString now
  else defaultHashString (String.intercalate "|" parts)

/-- Rust `Option` ordering (`None` least) restricted to the effective
dates compared by the entry sort in `process`. -/
def optDateLe : Option Nat → Option Nat → Bool
  | none, _ => true
  | some _, none => false
  | some a, some b => a ≤ b

/-- The comparator handed to `sorted_entries.sort_by` in `process`:
`|a, b| date_b.cmp(&date_a)`, i.e. `a` may precede `b` exactly when
`a`'s effective date is at least `b`'s (descending by date, dateless
entries last). -/
def entryBefore (a b : Entry) : Bool := optDateLe (effDate b) (effDate a)

/-- The sort order as a decidable relation. Rust's `sort_by` is a
stable sort, and all stable sorts of a list under a total transitive
comparator produce the same result, so the model sorts with a stable
insertion sort under this relation. -/
def entryBeforeRel (a b : Entry) : Prop := entryBefore a b = true

instance : DecidableRel entryBeforeRel :=
  fun a b => inferInstanceAs (Decidable (entryBefore a b = true))

/-- The mutable state of one run of `process` over a feed's sorted
entries: the shared `POSTED_ARTICLES` fingerprint set (as a list),
`new_items`, `newest_posted_date`, plus two observation lists recording
which entries had a publish attempted and which succeeded. -/
structure ProcState where
  posted : List String
  new_items : Nat
  newest_posted_date : Option String
  attempted : List Entry
  succeeded : List Entry
deriving DecidableEq

/-- The `should_post` condition of `process` (src/scheduler/tasks.rs
lines 147-156): with a watermark, the entry's RFC3339 effective date
must exceed it by string comparison (dateless entries never post);
without one, post only while nothing has been posted yet this pass. -/
def shouldPost (feed : DbFeed) (st : ProcState) (e : Entry) : Bool :=
  match feed.last_item_date with
  | some last =>
    match effDate e with
    | some d => strGt (toRfc3339 d) last
    | none => false
  | none => st.new_items == 0

/-- The `newest_posted_date` update after a successful publish
(src/scheduler/tasks.rs lines 172-180): replace the running value when
the new date string compares greater (`map_or(true, …)`). -/
def updNewest (cur : Option String) (d : String) : Option String :=
  match cur with
  | some existing => if strGt d existing then some d else some existing
  | none => some d

/-- State change on a successful publish of entry `e` with fingerprint
`eid`: record the fingerprint in `POSTED_ARTICLES`, bump `new_items`,
fold the entry's effective date into `newest_posted_date`. -/
def stepSuccess (st : ProcState) (eid : String) (e : Entry) : ProcState :=
  { st with
    posted := st.posted ++ [eid]
    new_items := st.new_items + 1
    newest_posted_date :=
      match effDate e with
      | some d => updNewest st.newest_posted_date (toRfc3339 d)
      | none => st.newest_posted_date
    attempted := st.attempted ++ [e]
    succeeded := st.succeeded ++ [e] }

/-- The entry loop of `process` (src/scheduler/tasks.rs lines 136-188).
`pub_ok e` is the outcome of `post` for entry `e` (delivery succeeded
after at most one retry). Entries whose fingerprint is already in
`POSTED_ARTICLES` are skipped; a failed publish `break`s out of the
loop, leaving the state otherwise unchanged for that entry. -/
def processEntries (now : Nat) (feed : DbFeed) (pub_ok : Entry → Bool) :
    List Entry → ProcState → ProcState
  | [], st => st
  | e :: rest, st =>
    let eid := identifier now e
    if st.posted.contains eid then processEntries now feed pub_ok rest st
    else if shouldPost feed st e then
      if pub_ok e then processEntries now feed pub_ok rest (stepSuccess st eid e)
      else { st with attempted := st.attempted ++ [e] }
    else processEntries now feed pub_ok rest st

/-- The outcome of one `process` call: the final loop state, the
database write it performs (`update(feed.id, newest_posted_date)` when
`new_items > 0`, nothing otherwise), and the returned count. -/
structure ProcResult where
  final : ProcState
  db_update : Option (Int × Option String)
  ret : Nat
deriving DecidableEq

/-- The scan-window size of `process`: `min(3, total)` entries when a
watermark exists, exactly 1 when it does not
(src/scheduler/tasks.rs lines 123-127). -/
def itemsToCheck (feed : DbFeed) (total : Nat) : Nat :=
  if feed.last_item_date.isSome then min 3 total else 1

/-- Packs the loop's final state into the observable result of
`process`: the watermark write `update(feed.id, newest_posted_date)`
happens exactly when `new_items > 0`
(src/scheduler/tasks.rs lines 190-203), and `Ok(new_items)` is
returned. -/
def procResult (feed : DbFeed) (st : ProcState) : ProcResult :=
  ⟨st, if 0 < st.new_items then some (feed.id, st.newest_posted_date) else none,
    st.new_items⟩

/-- The pure core of `process` (src/scheduler/tasks.rs lines 95-204)
after the fetch/parse succeeded with `entries`: empty feeds return 0;
otherwise sort descending by effective date (the stable insertion sort
models Rust's stable `sort_by`), scan the window, run the publish loop
starting from the shared fingerprint set `posted0`, and persist the
watermark only when something was posted. -/
def process (now : Nat) (feed : DbFeed) (pub_ok : Entry → Bool)
    (entries : List Entry) (posted0 : List String) : ProcResult :=
  if entries.length = 0 then ⟨⟨posted0, 0, none, [], []⟩, none, 0⟩
  else
    procResult feed
      (processEntries now feed pub_ok
        ((List.insertionSort entryBeforeRel entries).take
          (itemsToCheck feed entries.length))
        ⟨posted0, 0, none, [], []⟩)

/-- Replays the `newest_posted_date` accumulation over a list of
successfully published entries, in publish order. -/
def newestOf (l : List Entry) : Option String :=
  l.foldl
    (fun cur e =>
      match effDate e with
      | some d => updNewest cur (toRfc3339 d)
      | none => cur)
    none

/-- Result of one `post` call (delivery of one entry). -/
inductive PostResult
  | ok
  | err
deriving DecidableEq

/-- The retry loop of `post` (src/scheduler/tasks.rs lines 311-327):
`send i` is the outcome of the `i`-th `send_message` delivery attempt;
the loop runs `attempt in 0..2`, returning success on the first
successful attempt and an error after the second failure. The second
component counts delivery attempts actually made. -/
def postAttempts (send : Nat → Bool) : PostResult × Nat :=
  if send 0 then (.ok, 1)
  else if send 1 then (.ok, 2)
  else (.err, 2)

/-- A delivery destination for one published entry. -/
inductive Delivery
  | channelMessage (channel_id : Int)
  | webhookPost (url : String)
deriving DecidableEq

/-- The destination `post` (src/scheduler/tasks.rs lines 273-312)
delivers to: it always builds `ChannelId::new(feed.channel_id)` and
calls `channel_id.send_message`; no other delivery path appears in the
function. -/
def postDestination (feed : DbFeed) : Delivery := .channelMessage feed.channel_id

/-- Outcome of one invocation of the full cycle `check`. -/
inductive CycleOutcome
  | skipped
  | completed (success failed : Nat)
deriving DecidableEq

/-- Observable effects of one `check` invocation: its outcome, how many
feed fetches it started, whether it queued the cycle for a retry (the
code has no such mechanism), the log lines it emits, and whether the
call returned `Ok`. -/
structure CheckRun where
  outcome : CycleOutcome
  fetches : Nat
  queued : Bool
  log : List String
  ret_ok : Bool
deriving DecidableEq

/-- The single-flight structure of `check` (src/scheduler/tasks.rs
lines 23-86): `lock_busy` models `FEED_CHECK_LOCK.try_lock()` failing
because another cycle holds the static mutex; in that case the function
warns and returns `Ok` at once, fetching nothing and queueing nothing.
Otherwise every feed is fetched under the semaphore and per-feed
outcomes (`feed_ok`) are aggregated into success/failure counts. -/
def check (lock_busy : Bool) (feeds : List DbFeed) (feed_ok : DbFeed → Bool) :
    CheckRun :=
  if lock_busy then
    { outcome := .skipped, fetches := 0, queued := false,
      log := ["Feed check already in progress, skipping this cycle"],
      ret_ok := true }
  else if feeds.isEmpty then
    { outcome := .completed 0 0, fetches := 0, queued := false,
      log := ["No feeds to check"], ret_ok := true }
  else
    { outcome := .completed (feeds.filter feed_ok).length
        (feeds.filter (fun f => !feed_ok f)).length,
      fetches := feeds.length, queued := false, log := [], ret_ok := true }

/-- UTF-8 continuation byte test (`0x80..0xBF`), as in Rust's char
boundary check. -/
def isContByte (b : Nat) : Bool := 128 ≤ b && b < 192

/-- Rust `str::is_char_boundary` on a byte sequence: position 0 and the
end are boundaries; an interior position is one exactly when its byte is
not a continuation byte; positions past the end are not. -/
def isCharBoundary (s : List Nat) (i : Nat) : Bool :=
  if i = 0 then true
  else if i = s.length then true
  else
    match s.get? i with
    | some b => !isContByte b
    | none => false

/-- Rust's slice `&s[..i]` on a string of bytes `s`: `none` models the
panic raised when `i` is not a char boundary (or past the end). -/
def sliceTo (s : List Nat) (i : Nat) : Option (List Nat) :=
  if isCharBoundary s i then some (s.take i) else none

/-- Index of the last element of the list satisfying `p`, modelling
`str::rfind` restricted to the ASCII needles `truncate` uses (for an
ASCII needle, Rust's byte index is the index of the matching byte). -/
def rlastIdx (p : Nat → Bool) : List Nat → Option Nat
  | [] => none
  | b :: rest =>
    match rlastIdx p rest with
    | some i => some (i + 1)
    | none => if p b then some 0 else none

/-- The common shape of `truncate`'s boundary tests: the last byte of
the window satisfying `p`, kept only when its index falls past three
quarters of `max_length` (the code's `idx > max_length * 3 / 4`). -/
def boundaryCut (p : Nat → Bool) (t : List Nat) (max_length : Nat) : Option Nat :=
  match rlastIdx p t with
  | some i => if max_length * 3 / 4 < i then some i else none
  | none => none

/-- The sentence-boundary branch test of `truncate`: the last `'.'`. -/
def sentenceCut (t : List Nat) (max_length : Nat) : Option Nat :=
  boundaryCut (· = 46) t max_length

/-- The word-boundary branch test of `truncate`: the last space. -/
def spaceCut (t : List Nat) (max_length : Nat) : Option Nat :=
  boundaryCut (· = 32) t max_length

/-- The punctuation branch test of `truncate`: the last of
`['.', '!', '?', ',', ';']`. -/
def punctCut (t : List Nat) (max_length : Nat) : Option Nat :=
  boundaryCut (fun b => b = 46 || b = 33 || b = 63 || b = 44 || b = 59) t max_length

/-- UTF-8 bytes of the `…` ellipsis character `truncate` appends. -/
def ellipsisBytes : List Nat := [226, 128, 166]

/-- Byte-level model of `truncate` (src/util/parser.rs lines 164-190),
operating on the UTF-8 bytes of the input; `none` models a panic from
slicing at a non-char-boundary. Texts not longer than `max_length`
bytes are returned unchanged; otherwise the window `&text[..max_length]`
is cut back at the preferred boundary (sentence, then word, then
punctuation, each only past three quarters of the limit), else hard-cut
at `max_length - 1` bytes; all but the sentence branch append `…`, the
sentence branch re-appends `'.'`. -/
def rustTruncate (text : List Nat) (max_length : Nat) : Option (List Nat) :=
  if text.length ≤ max_length then some text
  else
    match sliceTo text max_length with
    | none => none
    | some truncated =>
      match sentenceCut truncated max_length with
      | some i => (sliceTo truncated i).map (· ++ [46])
      | none =>
        match spaceCut truncated max_length with
        | some i => (sliceTo truncated i).map (· ++ ellipsisBytes)
        | none =>
          match punctCut truncated max_length with
          | some i => (sliceTo truncated (i + 1)).map (· ++ ellipsisBytes)
          | none => (sliceTo truncated (max_length - 1)).map (· ++ ellipsisBytes)

/-- Number of characters of a UTF-8 byte sequence: the count of
non-continuation bytes. -/
def charLen (s : List Nat) : Nat := (s.filter fun b => !isContByte b).length


lemma bytesLt_irrefl (a : List Char) : bytesLt a a = false := by
  induction a with
  | nil => rfl
  | cons c t ih => simp [bytesLt, ih]

lemma bytesLt_trans :
    ∀ {a b c : List Char}, bytesLt a b = true → bytesLt b c = true →
      bytesLt a c = true := by
  intro a
  induction a with
  | nil =>
    intro b c hab hbc
    cases b with
    | nil => simp [bytesLt] at hab
    | cons y ys =>
      cases c with
      | nil => simp [bytesLt] at hbc
      | cons z zs => simp [bytesLt]
  | cons x xs ih =>
    intro b c hab hbc
    cases b with
    | nil => simp [bytesLt] at hab
    | cons y ys =>
      cases c with
      | nil => simp [bytesLt] at hbc
      | cons z zs =>
        simp only [bytesLt] at hab hbc ⊢
        split_ifs at hab hbc ⊢ with h1 h2 h3 h4 h5 h6 <;>
          first
            | rfl
            | omega
            | (exact ih hab hbc)

lemma bytesLt_le_trans :
    ∀ {a b c : List Char}, bytesLt a b = false → bytesLt b c = false →
      bytesLt a c = false := by
  intro a
  induction a with
  | nil =>
    intro b c hab hbc
    cases b with
    | nil =>
      cases c with
      | nil => rfl
      | cons z zs => simp [bytesLt] at hbc
    | cons y ys => simp [bytesLt] at hab
  | cons x xs ih =>
    intro b c hab hbc
    cases c with
    | nil => rfl
    | cons z zs =>
      cases b with
      | nil => simp [bytesLt] at hbc
      | cons y ys =>
        simp only [bytesLt] at hab hbc ⊢
        split_ifs at hab hbc ⊢ with h1 h2 h3 h4 h5 h6 <;>
          first
            | rfl
            | omega
            | (exact ih hab hbc)


lemma strGt_irrefl (a : String) : strGt a a = false := bytesLt_irrefl a.data

lemma strGt_asymm {a b : String} (h : strGt a b = true) : strGt b a = false := by
  rcases hba : strGt b a with _ | _
  · rfl
  · exfalso
    have := bytesLt_trans (a := b.data) (b := a.data) (c := b.data) h hba
    rw [bytesLt_irrefl] at this
    cases this

lemma strGt_le_trans {x r d : String} (h1 : strGt x r = false)
    (h2 : strGt r d = false) : strGt x d = false :=
  bytesLt_le_trans (a := d.data) (b := r.data) (c := x.data) h2 h1

lemma optDateLe_refl (x : Option Nat) : optDateLe x x = true := by
  cases x <;> simp [optDateLe]

lemma optDateLe_trans {x y z : Option Nat} (h1 : optDateLe x y = true)
    (h2 : optDateLe y z = true) : optDateLe x z = true := by
  cases x <;> cases y <;> cases z <;> simp_all [optDateLe]
  omega

lemma optDateLe_total (x y : Option Nat) :
    (optDateLe x y || optDateLe y x) = true := by
  cases x <;> cases y <;> simp [optDateLe]
  omega

lemma entryBefore_trans (a b c : Entry) (h1 : entryBefore a b = true)
    (h2 : entryBefore b c = true) : entryBefore a c = true :=
  optDateLe_trans h2 h1

lemma entryBefore_total (a b : Entry) :
    (entryBefore a b || entryBefore b a) = true :=
  optDateLe_total (effDate b) (effDate a)

lemma updNewest_isSome (cur : Option String) (s : String) :
    ∃ r, updNewest cur s = some r := by
  cases cur with
  | none => exact ⟨s, rfl⟩
  | some c =>
    simp only [updNewest]
    split <;> exact ⟨_, rfl⟩

lemma updNewest_origin {cur : Option String} {s r : String}
    (h : updNewest cur s = some r) : r = s ∨ cur = some r := by
  cases cur with
  | none =>
    cases h
    exact Or.inl rfl
  | some c =>
    simp only [updNewest] at h
    split at h <;> cases h
    · exact Or.inl rfl
    · exact Or.inr rfl

lemma updNewest_ub {cur : Option String} {s r : String}
    (h : updNewest cur s = some r) :
    strGt s r = false ∧ ∀ c, cur = some c → strGt c r = false := by
  cases cur with
  | none =>
    cases h
    exact ⟨strGt_irrefl s, by simp⟩
  | some c =>
    simp only [updNewest] at h
    split at h <;> cases h
    · next hgt =>
      refine ⟨strGt_irrefl s, fun c' hc' => ?_⟩
      cases hc'
      exact strGt_asymm hgt
    · next hgt =>
      refine ⟨Bool.of_not_eq_true hgt, fun c' hc' => ?_⟩
      cases hc'
      exact strGt_irrefl _

/-- The single accumulation step of `newestOf`. -/
def newestStep (cur : Option String) (e : Entry) : Option String :=
  match effDate e with
  | some d => updNewest cur (toRfc3339 d)
  | none => cur

lemma newestOf_eq_foldl (l : List Entry) :
    newestOf l = l.foldl newestStep none := rfl

lemma newestOf_append_one (l : List Entry) (e : Entry) :
    newestOf (l ++ [e]) = newestStep (newestOf l) e := by
  rw [newestOf_eq_foldl, newestOf_eq_foldl, List.foldl_append]
  rfl

lemma newestStep_of_none {e : Entry} (hD : effDate e = none)
    (cur : Option String) : newestStep cur e = cur := by
  simp [newestStep, hD]

lemma newestStep_of_some {e : Entry} {dd : Nat} (hD : effDate e = some dd)
    (cur : Option String) : newestStep cur e = updNewest cur (toRfc3339 dd) := by
  simp [newestStep, hD]

lemma newest_fold_origin :
    ∀ (l : List Entry) (cur : Option String) (d : String),
      l.foldl newestStep cur = some d →
      cur = some d ∨ ∃ e ∈ l, (effDate e).map toRfc3339 = some d := by
  intro l
  induction l with
  | nil => intro cur d h; exact Or.inl h
  | cons e rest ih =>
    intro cur d h
    rcases ih (newestStep cur e) d h with h1 | ⟨e', he', hd⟩
    · cases hD : effDate e with
      | none =>
        rw [newestStep_of_none hD] at h1
        exact Or.inl h1
      | some dd =>
        rw [newestStep_of_some hD] at h1
        rcases updNewest_origin h1 with rfl | hcur
        · exact Or.inr ⟨e, by simp, by rw [hD]; rfl⟩
        · exact Or.inl hcur
    · exact Or.inr ⟨e', by simp [he'], hd⟩

set_option maxHeartbeats 1000000 in
lemma newest_fold_bound :
    ∀ (l : List Entry) (cur : Option String) (d : String),
      l.foldl newestStep cur = some d →
      (∀ c, cur = some c → strGt c d = false) ∧
      ∀ e ∈ l, ∀ d', (effDate e).map toRfc3339 = some d' → strGt d' d = false := by
  intro l
  induction l with
  | nil =>
    intro cur d h
    refine ⟨fun c hc => ?_, by simp⟩
    simp only [List.foldl_nil] at h
    rw [hc] at h
    cases h
    exact strGt_irrefl d
  | cons e rest ih =>
    intro cur d h
    have ihr := ih (newestStep cur e) d h
    cases hD : effDate e with
    | none =>
      refine ⟨fun c hc => ihr.1 c (by rw [newestStep_of_none hD]; exact hc), ?_⟩
      intro e' he' d' hd'
      rcases List.mem_cons.mp he' with rfl | hmem
      · rw [hD] at hd'
        cases hd'
      · exact ihr.2 e' hmem d' hd'
    | some dd =>
      obtain ⟨r, hr⟩ := updNewest_isSome cur (toRfc3339 dd)
      have hrd : strGt r d = false :=
        ihr.1 r (by rw [newestStep_of_some hD]; exact hr)
      obtain ⟨hsr, hcr⟩ := updNewest_ub hr
      refine ⟨fun c hc => strGt_le_trans (hcr c hc) hrd, ?_⟩
      intro e' he' d' hd'
      rcases List.mem_cons.mp he' with rfl | hmem
      · rw [hD] at hd'
        cases hd'
        exact strGt_le_trans hsr hrd
      · exact ihr.2 e' hmem d' hd'

/-- The maximum characterization of `newestOf`: when it yields a date,
that date is the effective date of one of the listed entries and no
listed entry's effective date compares greater. -/
lemma newestOf_max (l : List Entry) (d : String) (h : newestOf l = some d) :
    (∃ e ∈ l, (effDate e).map toRfc3339 = some d) ∧
    ∀ e ∈ l, ∀ d', (effDate e).map toRfc3339 = some d' → strGt d' d = false := by
  rw [newestOf_eq_foldl] at h
  refine ⟨?_, (newest_fold_bound l none d h).2⟩
  rcases newest_fold_origin l none d h with h1 | h2
  · cases h1
  · exact h2

lemma shouldPost_some_elim {feed : DbFeed} {st : ProcState} {e : Entry} {w : String}
    (hw : feed.last_item_date = some w) (h : shouldPost feed st e = true) :
    ∃ dd, effDate e = some dd ∧ strGt (toRfc3339 dd) w = true := by
  rw [shouldPost, hw] at h
  cases hD : effDate e with
  | none => rw [hD] at h; cases h
  | some dd =>
    rw [hD] at h
    exact ⟨dd, rfl, h⟩

lemma processEntries_newest (now : Nat) (feed : DbFeed) (pub_ok : Entry → Bool) :
    ∀ (l : List Entry) (st : ProcState),
      st.newest_posted_date = newestOf st.succeeded →
      (processEntries now feed pub_ok l st).newest_posted_date
        = newestOf (processEntries now feed pub_ok l st).succeeded := by
  intro l
  induction l with
  | nil => intro st h; simpa [processEntries] using h
  | cons e rest ih =>
    intro st h
    rw [processEntries]
    split
    · exact ih st h
    · split
      · split
        · apply ih
          show (stepSuccess st (identifier now e) e).newest_posted_date
            = newestOf (stepSuccess st (identifier now e) e).succeeded
          rw [stepSuccess]
          simp only
          rw [newestOf_append_one, ← h]
          rfl
        · simpa using h
      · exact ih st h

lemma processEntries_count (now : Nat) (feed : DbFeed) (pub_ok : Entry → Bool) :
    ∀ (l : List Entry) (st : ProcState),
      st.new_items = st.succeeded.length →
      (processEntries now feed pub_ok l st).new_items
        = (processEntries now feed pub_ok l st).succeeded.length := by
  intro l
  induction l with
  | nil => intro st h; simpa [processEntries] using h
  | cons e rest ih =>
    intro st h
    rw [processEntries]
    split
    · exact ih st h
    · split
      · split
        · apply ih
          simp [stepSuccess, h]
        · simpa using h
      · exact ih st h

lemma processEntries_wm_bound (now : Nat) (feed : DbFeed) (pub_ok : Entry → Bool)
    (w : String) (hw : feed.last_item_date = some w) :
    ∀ (l : List Entry) (st : ProcState),
      (∀ d, st.newest_posted_date = some d → strGt d w = true) →
      (∀ d, (processEntries now feed pub_ok l st).newest_posted_date = some d →
        strGt d w = true) := by
  intro l
  induction l with
  | nil => intro st h; simpa [processEntries] using h
  | cons e rest ih =>
    intro st h
    rw [processEntries]
    split
    · exact ih st h
    · split
      · next hsp =>
        split
        · apply ih
          intro d hd
          obtain ⟨dd, hD, hgt⟩ := shouldPost_some_elim hw hsp
          rw [stepSuccess] at hd
          simp only at hd
          rw [hD] at hd
          rcases updNewest_origin hd with rfl | hc
          · exact hgt
          · exact h _ hc
        · simpa using h
      · exact ih st h

lemma processEntries_some_of_posted (now : Nat) (feed : DbFeed)
    (pub_ok : Entry → Bool) (w : String) (hw : feed.last_item_date = some w) :
    ∀ (l : List Entry) (st : ProcState),
      (st.new_items ≠ 0 → st.newest_posted_date.isSome = true) →
      ((processEntries now feed pub_ok l st).new_items ≠ 0 →
        (processEntries now feed pub_ok l st).newest_posted_date.isSome = true) := by
  intro l
  induction l with
  | nil => intro st h; simpa [processEntries] using h
  | cons e rest ih =>
    intro st h
    rw [processEntries]
    split
    · exact ih st h
    · split
      · next hsp =>
        split
        · apply ih
          intro _
          obtain ⟨dd, hD, _⟩ := shouldPost_some_elim hw hsp
          rw [stepSuccess]
          simp only
          rw [hD]
          obtain ⟨r, hr⟩ := updNewest_isSome st.newest_posted_date (toRfc3339 dd)
          simp [hr]
        · simpa using h
      · exact ih st h

lemma processEntries_break (now : Nat) (feed : DbFeed) (pub_ok : Entry → Bool)
    (e : Entry) (rest : List Entry) (st : ProcState)
    (hc : st.posted.contains (identifier now e) = false)
    (hs : shouldPost feed st e = true) (hp : pub_ok e = false) :
    processEntries now feed pub_ok (e :: rest) st
      = { st with attempted := st.attempted ++ [e] } := by
  have hc' : identifier now e ∉ st.posted := by simpa using hc
  rw [processEntries]
  simp [hc', hs, hp]


lemma rlastIdx_lt_length {p : Nat → Bool} :
    ∀ {s : List Nat} {i : Nat}, rlastIdx p s = some i → i < s.length := by
  intro s
  induction s with
  | nil => intro i h; cases h
  | cons b rest ih =>
    intro i h
    rw [rlastIdx] at h
    cases hr : rlastIdx p rest with
    | some j =>
      rw [hr] at h
      cases h
      have := ih hr
      simp only [List.length_cons]
      omega
    | none =>
      rw [hr] at h
      by_cases hpb : p b = true
      · rw [if_pos hpb] at h
        cases h
        simp
      · rw [if_neg hpb] at h
        cases h

lemma boundaryCut_lt {p : Nat → Bool} {t : List Nat} {m i : Nat}
    (h : boundaryCut p t m = some i) : i < t.length ∧ m * 3 / 4 < i := by
  rw [boundaryCut] at h
  cases hr : rlastIdx p t with
  | none => rw [hr] at h; cases h
  | some j =>
    rw [hr] at h
    have h' : (if m * 3 / 4 < j then some j else none) = some i := h
    by_cases hm : m * 3 / 4 < j
    · rw [if_pos hm] at h'
      cases h'
      exact ⟨rlastIdx_lt_length hr, hm⟩
    · rw [if_neg hm] at h'
      cases h'

lemma ascii_isCharBoundary {s : List Nat} (h : ∀ b ∈ s, b < 128) {i : Nat}
    (hi : i ≤ s.length) : isCharBoundary s i = true := by
  rw [isCharBoundary]
  split
  · rfl
  · split
    · rfl
    · next hlen =>
      have hilt : i < s.length := lt_of_le_of_ne hi hlen
      have hb : s[i] < 128 := h _ (List.getElem_mem hilt)
      rw [List.get?_eq_get hilt]
      simp [isContByte]
      omega

lemma sliceTo_ascii {s : List Nat} (h : ∀ b ∈ s, b < 128) {i : Nat}
    (hi : i ≤ s.length) : sliceTo s i = some (s.take i) := by
  rw [sliceTo, if_pos (ascii_isCharBoundary h hi)]

lemma charLen_ascii {s : List Nat} (h : ∀ b ∈ s, b < 128) :
    charLen s = s.length := by
  rw [charLen]
  have hall : ∀ b ∈ s, (!isContByte b) = true := by
    intro b hb
    have := h b hb
    simp [isContByte]
    omega
  rw [List.filter_eq_self.mpr hall]

lemma charLen_append (a b : List Nat) :
    charLen (a ++ b) = charLen a + charLen b := by
  simp [charLen, List.filter_append]

/-- C6 (amended): for ASCII text longer than the limit, `truncate` does
not panic; when a `'.'` occurs past three quarters of the window the
result ends at that last sentence boundary, and otherwise the result
ends with the ellipsis marker and has at most `max_length + 1`
characters (the punctuation branch can exceed the requested length by
exactly one character). -/
theorem truncate_boundary_behavior_amended (s : List Nat) (max_length : Nat)
    (hascii : ∀ b ∈ s, b < 128) (hlen : max_length < s.length) :
    ∃ r, rustTruncate s max_length = some r ∧
      (∀ i, sentenceCut (s.take max_length) max_length = some i →
        r = s.take i ++ [46]) ∧
      (sentenceCut (s.take max_length) max_length = none →
        ellipsisBytes <:+ r ∧ charLen r ≤ max_length + 1) := by
  have htr : ∀ b ∈ s.take max_length, b < 128 :=
    fun b hb => hascii b (List.mem_of_mem_take hb)
  have htlen : (s.take max_length).length = max_length := by
    rw [List.length_take]
    omega
  have hcl : ∀ j, j ≤ max_length →
      charLen ((s.take max_length).take j ++ ellipsisBytes) = j + 1 := by
    intro j hj
    rw [charLen_append]
    have : charLen ((s.take max_length).take j) = j := by
      rw [charLen_ascii (fun b hb => htr b (List.mem_of_mem_take hb)),
        List.length_take, htlen]
      omega
    rw [this]
    rfl
  rw [rustTruncate, if_neg (by omega)]
  rw [sliceTo_ascii hascii (le_of_lt hlen)]
  simp only
  cases hsc : sentenceCut (s.take max_length) max_length with
  | some i =>
    have hi : i < max_length := htlen ▸ (boundaryCut_lt hsc).1
    simp only
    rw [sliceTo_ascii htr (by omega)]
    refine ⟨_, rfl, ?_, ?_⟩
    · intro i' hi'
      cases hi'
      show (s.take max_length).take i ++ [46] = s.take i ++ [46]
      rw [List.take_take, Nat.min_eq_left (le_of_lt hi)]
    · intro hn
      cases hn
  | none =>
    simp only
    cases hsp : spaceCut (s.take max_length) max_length with
    | some i =>
      have hi : i < max_length := htlen ▸ (boundaryCut_lt hsp).1
      simp only
      rw [sliceTo_ascii htr (by omega)]
      refine ⟨_, rfl, ?_, ?_⟩
      · intro i' hi'
        cases hi'
      · intro _
        refine ⟨List.suffix_append _ _, ?_⟩
        show charLen ((s.take max_length).take i ++ ellipsisBytes) ≤ max_length + 1
        rw [hcl i (le_of_lt hi)]
        omega
    | none =>
      simp only
      cases hpc : punctCut (s.take max_length) max_length with
      | some i =>
        have hi : i < max_length := htlen ▸ (boundaryCut_lt hpc).1
        simp only
        rw [sliceTo_ascii htr (by omega)]
        refine ⟨_, rfl, ?_, ?_⟩
        · intro i' hi'
          cases hi'
        · intro _
          refine ⟨List.suffix_append _ _, ?_⟩
          show charLen ((s.take max_length).take (i + 1) ++ ellipsisBytes)
            ≤ max_length + 1
          rw [hcl (i + 1) (by omega)]
          omega
      | none =>
        simp only
        rw [sliceTo_ascii htr (by omega)]
        refine ⟨_, rfl, ?_, ?_⟩
        · intro i' hi'
          cases hi'
        · intro _
          refine ⟨List.suffix_append _ _, ?_⟩
          show charLen ((s.take max_length).take (max_length - 1) ++ ellipsisBytes)
            ≤ max_length + 1
          rw [hcl (max_length - 1) (by omega)]
          omega

/-- The 2024-01-01T00:00:00Z watermark of the spec's worked scenario. -/
def scenarioWatermark : String := toRfc3339 1704067200

/-- Registration used by the worked scenario: watermark present, no
webhook endpoint. -/
def scenarioFeed : DbFeed :=
  ⟨1, 10, 42, "https://example.com/feed.xml", some "Example Feed", none,
    toRfc3339 1704067200, some scenarioWatermark⟩

/-- Entry dated 2024-01-02T00:00:00Z, strictly after the watermark. -/
def entryJan2 : Entry :=
  ⟨"urn:item:a1", some "After the watermark", ["https://example.com/posts/after"],
    none, none, some 1704153600, none⟩

/-- Entry dated 2023-12-31T00:00:00Z, strictly before the watermark. -/
def entryDec31 : Entry :=
  ⟨"urn:item:b1", some "Before the watermark", ["https://example.com/posts/before"],
    none, none, some 1703980800, none⟩

/-- C5: the claim that `clean`, `truncate` and the description builder
never panic is contradicted by the code: `truncate("é", 1)` reaches
`&text[..1]`, and byte 1 is in the middle of the two-byte UTF-8
character `é`, so the slice panics (`none` in the model). -/
theorem truncate_panics_on_multibyte_boundary :
    rustTruncate (utf8 "é") 1 = none ∧ utf8 "é" = [195, 169] := by decide

/-- C6 counterexample: `truncate("aaaaaaa!X", 8)` takes the punctuation
branch (`[..=7]` plus an ellipsis) and returns a 9-character string,
exceeding the requested length 8 even accounting for the marker. -/
theorem truncate_punct_branch_exceeds_limit :
    rustTruncate (utf8 "aaaaaaa!X") 8 = some (utf8 "aaaaaaa!" ++ ellipsisBytes) ∧
    charLen (utf8 "aaaaaaa!" ++ ellipsisBytes) = 9 := by decide

/-- Registration with a configured webhook endpoint, used to exhibit
that delivery ignores it. -/
def webhookFeed : DbFeed :=
  ⟨7, 10, 42, "https://example.com/feed.xml", some "Example Feed",
    some "https://discord.example/api/webhooks/1/token",
    "2024-01-01T00:00:00+00:00", none⟩

/-- C7 counterexample: even for a registration whose `webhook_url` is
configured, `post` delivers via a direct channel message and never via
the webhook endpoint. -/
theorem post_ignores_configured_webhook :
    webhookFeed.webhook_url.isSome = true ∧
    postDestination webhookFeed = .channelMessage 42 ∧
    ∀ u, postDestination webhookFeed ≠ .webhookPost u := by
  refine ⟨rfl, rfl, fun u h => ?_⟩
  cases h

/-- C7 (amended): the publisher always delivers via a direct message to
the registration's channel id, whether or not a webhook endpoint is
configured on the registration. -/
theorem post_always_direct_channel (feed : DbFeed) :
    postDestination feed = .channelMessage feed.channel_id := rfl

theorem post_always_direct_channel_witness :
    postDestination webhookFeed = .channelMessage webhookFeed.channel_id :=
  post_always_direct_channel webhookFeed

/-- Entry whose title is present (`"ab"`) but normalizes to the empty
string (every word is at most 2 bytes), with no link, id or date. -/
def shortTitledEntry : Entry := ⟨"", some "ab", [], none, none, none, none⟩

/-- C8 counterexample: the fingerprint of an entry with a present title
can still be synthesized from the current instant — with title `"ab"`
(all words filtered out by the 2-byte rule), no link, id or date, two
computations at different instants disagree, although title, link, id
and date are not all absent. -/
theorem fingerprint_unstable_despite_title :
    shortTitledEntry.title.isSome = true ∧
    identifier 0 shortTitledEntry ≠ identifier 1 shortTitledEntry := by decide

/-- C8 (amended): the fingerprint is stable across repeated computation
exactly when at least one fingerprint part is derived; when no part is
derived (which can happen even with a present title), the fingerprint
is `entry_<current instant>` and so differs between instants. -/
theorem fingerprint_stability_characterized (e : Entry) (t1 t2 : Nat) :
    (identifierParts e ≠ [] → identifier t1 e = identifier t2 e) ∧
    (identifierParts e = [] → identifier t1 e = "entry_" ++ toString t1) := by
  constructor
  · intro h
    rw [identifier, identifier, if_neg (by simpa using h), if_neg (by simpa using h)]
  · intro h
    rw [identifier, if_pos (by simpa using h)]

theorem fingerprint_stability_characterized_witness :
    identifier 0 entryJan2 = identifier 99 entryJan2 ∧
    identifier 5 shortTitledEntry = "entry_" ++ toString 5 :=
  ⟨(fingerprint_stability_characterized entryJan2 0 99).1 (by decide),
    (fingerprint_stability_characterized shortTitledEntry 5 0).2 (by decide)⟩

instance : IsTrans Entry entryBeforeRel :=
  ⟨fun a b c h1 h2 => entryBefore_trans a b c h1 h2⟩

instance : IsTotal Entry entryBeforeRel :=
  ⟨fun a b => by
    show entryBefore a b = true ∨ entryBefore b a = true
    simpa using entryBefore_total a b⟩

lemma processEntries_single_fresh (now : Nat) (feed : DbFeed)
    (pub_ok : Entry → Bool) (e : Entry) (hw : feed.last_item_date = none) :
    (processEntries now feed pub_ok [e] ⟨[], 0, none, [], []⟩).attempted = [e] := by
  rw [processEntries]
  rw [if_neg (by simp)]
  rw [if_pos (by simp [shouldPost, hw])]
  cases hp : pub_ok e
  · rw [if_neg (by simp [hp])]
    rfl
  · rw [if_pos (by simp [hp])]
    rw [processEntries]
    simp [stepSuccess]

/-- Entry dated 2023-01-03T00:00:00Z, also strictly after the scenario
watermark, for the abort counterexample. -/
def entryJan3 : Entry :=
  ⟨"urn:item:c1", some "Newest item of all", ["https://example.com/posts/newest"],
    none, none, some 1704240000, none⟩

/-- C2: with no watermark and a nonempty feed a pass attempts exactly
one entry, the first of the descending stable sort, which has a maximal
effective date among all entries. -/
theorem first_check_selects_single_newest (now : Nat) (feed : DbFeed)
    (pub_ok : Entry → Bool) (entries : List Entry)
    (hw : feed.last_item_date = none) (hne : entries ≠ []) :
    ∃ h, (process now feed pub_ok entries []).final.attempted = [h] ∧
      h ∈ entries ∧ ∀ e ∈ entries, optDateLe (effDate e) (effDate h) = true := by
  have hlen0 : ¬ (entries.length = 0) := fun h => hne (List.length_eq_zero.mp h)
  have hperm := List.perm_insertionSort entryBeforeRel entries
  obtain ⟨h0, t, hst⟩ : ∃ h0 t,
      List.insertionSort entryBeforeRel entries = h0 :: t := by
    cases hs : List.insertionSort entryBeforeRel entries with
    | nil =>
      rw [hs] at hperm
      exact absurd hperm.symm.length_eq (by simpa using hlen0)
    | cons a b => exact ⟨a, b, rfl⟩
  refine ⟨h0, ?_, ?_, ?_⟩
  · rw [process, if_neg hlen0, hst]
    have hitems : itemsToCheck feed entries.length = 1 := by
      rw [itemsToCheck, hw]
      rfl
    rw [hitems, List.take_succ_cons, List.take_zero]
    exact processEntries_single_fresh now feed pub_ok h0 hw
  · exact hperm.mem_iff.mp (hst ▸ List.mem_cons_self h0 t)
  · intro e he
    have hsorted := List.sorted_insertionSort entryBeforeRel entries
    rw [hst] at hsorted
    have he' : e ∈ h0 :: t := hst ▸ hperm.mem_iff.mpr he
    rcases List.mem_cons.mp he' with rfl | hmem
    · exact optDateLe_refl _
    · exact (List.sorted_cons.mp hsorted).1 e hmem

theorem first_check_selects_single_newest_witness :
    ∃ h, (process 0
        (⟨2, 10, 42, "https://example.com/feed.xml", some "Example Feed", none,
          "2024-01-01T00:00:00+00:00", none⟩ : DbFeed)
        (fun _ => true) [entryDec31, entryJan2] []).final.attempted = [h] ∧
      h ∈ [entryDec31, entryJan2] ∧
      ∀ e ∈ [entryDec31, entryJan2], optDateLe (effDate e) (effDate h) = true :=
  first_check_selects_single_newest 0 _ (fun _ => true) [entryDec31, entryJan2]
    rfl (List.cons_ne_nil _ _)

/-- C1: the worked scenario — watermark 2024-01-01, entries dated
2024-01-02 and 2023-12-31 — selects and publishes exactly the
2024-01-02 entry and persists watermark 2024-01-02T00:00:00+00:00; and
in general the watermark value a pass computes equals `newestOf` of the
successfully published entries alone (so a failed publish never
contributes), and `newestOf` yields the maximum effective date of that
list. -/
theorem watermark_scenario_selects_and_advances :
    ((process 0 scenarioFeed (fun _ => true) [entryDec31, entryJan2] []).final.attempted
        = [entryJan2] ∧
      (process 0 scenarioFeed (fun _ => true) [entryDec31, entryJan2] []).final.succeeded
        = [entryJan2] ∧
      (process 0 scenarioFeed (fun _ => true) [entryDec31, entryJan2] []).db_update
        = some (1, some "2024-01-02T00:00:00+00:00")) ∧
    (∀ (now : Nat) (feed : DbFeed) (pub_ok : Entry → Bool) (entries : List Entry)
      (posted0 : List String),
      (process now feed pub_ok entries posted0).final.newest_posted_date
        = newestOf (process now feed pub_ok entries posted0).final.succeeded) ∧
    (∀ (l : List Entry) (d : String), newestOf l = some d →
      (∃ e ∈ l, (effDate e).map toRfc3339 = some d) ∧
      ∀ e ∈ l, ∀ d', (effDate e).map toRfc3339 = some d' → strGt d' d = false) := by
  refine ⟨by decide, ?_, newestOf_max⟩
  intro now feed pub_ok entries posted0
  by_cases h0 : entries.length = 0
  · rw [process, if_pos h0]
    rfl
  · rw [process, if_neg h0]
    exact processEntries_newest now feed pub_ok _ _ rfl

theorem watermark_scenario_selects_and_advances_witness :
    (process 0 scenarioFeed (fun _ => true) [entryDec31, entryJan2]
        []).final.newest_posted_date
      = newestOf (process 0 scenarioFeed (fun _ => true) [entryDec31, entryJan2]
        []).final.succeeded ∧
    ((∃ e ∈ [entryJan2],
        (effDate e).map toRfc3339 = some "2024-01-02T00:00:00+00:00") ∧
      ∀ e ∈ [entryJan2], ∀ d', (effDate e).map toRfc3339 = some d' →
        strGt d' "2024-01-02T00:00:00+00:00" = false) :=
  ⟨watermark_scenario_selects_and_advances.2.1 0 scenarioFeed (fun _ => true)
      [entryDec31, entryJan2] [],
    watermark_scenario_selects_and_advances.2.2 [entryJan2] _ (by decide)⟩

/-- C3: when the first delivery attempt fails, `post` makes exactly one
immediate retry (two delivery calls in total) and succeeds iff the
retry succeeds; and an entry whose publish failed leaves the posted
fingerprints, the success count and the pending watermark unchanged. -/
theorem publish_retries_once_and_fails_clean :
    (∀ send : Nat → Bool, send 0 = false →
      (postAttempts send).2 = 2 ∧
      ((postAttempts send).1 = PostResult.ok ↔ send 1 = true)) ∧
    (∀ (now : Nat) (feed : DbFeed) (pub_ok : Entry → Bool) (e : Entry)
      (rest : List Entry) (st : ProcState),
      pub_ok e = false →
      st.posted.contains (identifier now e) = false →
      shouldPost feed st e = true →
      (processEntries now feed pub_ok (e :: rest) st).posted = st.posted ∧
      (processEntries now feed pub_ok (e :: rest) st).new_items = st.new_items ∧
      (processEntries now feed pub_ok (e :: rest) st).newest_posted_date
        = st.newest_posted_date) := by
  constructor
  · intro send h0
    rw [postAttempts, if_neg (by simp [h0])]
    cases h1 : send 1
    · rw [if_neg (by simp [h1])]
      simp
    · rw [if_pos (by simp [h1])]
      simp
  · intro now feed pub_ok e rest st hp hc hs
    rw [processEntries_break now feed pub_ok e rest st hc hs hp]
    exact ⟨rfl, rfl, rfl⟩

theorem publish_retries_once_and_fails_clean_witness :
    ((postAttempts (fun _ => false)).2 = 2 ∧
      ((postAttempts (fun _ => false)).1 = PostResult.ok ↔
        (fun _ : Nat => false) 1 = true)) ∧
    (processEntries 0 scenarioFeed (fun _ => false) [entryJan3]
      ⟨[], 0, none, [], []⟩).posted = [] :=
  ⟨publish_retries_once_and_fails_clean.1 (fun _ => false) rfl,
    (publish_retries_once_and_fails_clean.2 0 scenarioFeed (fun _ => false)
      entryJan3 [] ⟨[], 0, none, [], []⟩ rfl (by decide) (by decide)).1⟩

/-- C4 counterexample: with watermark 2024-01-01 and two entries dated
2024-01-03 and 2024-01-02 — both qualifying — a publish failure on the
first (for any reason, systemic or not) aborts the loop: the 2024-01-02
entry is never attempted, although the claim says processing of
remaining selected entries continues for non-systemic failures. -/
theorem publish_error_aborts_remaining_counterexample :
    strGt (toRfc3339 1704153600) scenarioWatermark = true ∧
    (process 0 scenarioFeed (fun _ => false) [entryJan2, entryJan3]
      []).final.attempted = [entryJan3] ∧
    (process 0 scenarioFeed (fun _ => false) [entryJan2, entryJan3]
      []).final.succeeded = [] ∧
    (process 0 scenarioFeed (fun _ => false) [entryJan2, entryJan3]
      []).db_update = none := by
  decide

/-- C4 (amended): the first failed publish of a pass aborts processing
of all remaining entries of that feed regardless of the failure's
nature — the loop returns at once, with the failed entry leaving the
shared fingerprint memory, count and pending watermark untouched (so
other feeds, which interact only through that shared state, are
unaffected). -/
theorem publish_error_stops_remaining_entries (now : Nat) (feed : DbFeed)
    (pub_ok : Entry → Bool) (e : Entry) (rest : List Entry) (st : ProcState)
    (hc : st.posted.contains (identifier now e) = false)
    (hs : shouldPost feed st e = true) (hp : pub_ok e = false) :
    processEntries now feed pub_ok (e :: rest) st
      = { st with attempted := st.attempted ++ [e] } :=
  processEntries_break now feed pub_ok e rest st hc hs hp

theorem publish_error_stops_remaining_entries_witness :
    processEntries 0 scenarioFeed (fun _ => false) [entryJan3, entryJan2]
        ⟨[], 0, none, [], []⟩
      = ⟨[], 0, none, [entryJan3], []⟩ := by
  have h := publish_error_stops_remaining_entries 0 scenarioFeed (fun _ => false)
    entryJan3 [entryJan2] ⟨[], 0, none, [], []⟩ (by decide) (by decide) rfl
  simpa using h

/-- C9: a `check` invocation that finds the single-flight lock busy
(another cycle still running) returns `Ok` at once with the skip
logged, performs no fetches, and queues no retry of the cycle. -/
theorem overlapping_cycle_skipped (feeds : List DbFeed)
    (feed_ok : DbFeed → Bool) :
    check true feeds feed_ok =
      { outcome := .skipped, fetches := 0, queued := false,
        log := ["Feed check already in progress, skipping this cycle"],
        ret_ok := true } := rfl

theorem overlapping_cycle_skipped_witness :
    check true [scenarioFeed] (fun _ => true) =
      { outcome := .skipped, fetches := 0, queued := false,
        log := ["Feed check already in progress, skipping this cycle"],
        ret_ok := true } :=
  overlapping_cycle_skipped [scenarioFeed] (fun _ => true)

/-- C10: with an existing watermark `w`, any watermark a pass persists
is `some d` with `d > w` by string comparison, and a pass that
publishes nothing performs no watermark write at all. -/
theorem watermark_strictly_increases (now : Nat) (feed : DbFeed)
    (pub_ok : Entry → Bool) (entries : List Entry) (posted0 : List String)
    (w : String) (hw : feed.last_item_date = some w) :
    (∀ fid dopt,
      (process now feed pub_ok entries posted0).db_update = some (fid, dopt) →
      ∃ d, dopt = some d ∧ strGt d w = true) ∧
    ((process now feed pub_ok entries posted0).final.succeeded = [] →
      (process now feed pub_ok entries posted0).db_update = none) := by
  by_cases h0 : entries.length = 0
  · rw [process, if_pos h0]
    exact ⟨fun fid dopt h => by simp at h, fun _ => rfl⟩
  · rw [process, if_neg h0]
    have hcount := processEntries_count now feed pub_ok
      ((List.insertionSort entryBeforeRel entries).take
        (itemsToCheck feed entries.length)) ⟨posted0, 0, none, [], []⟩ rfl
    have hbound := processEntries_wm_bound now feed pub_ok w hw
      ((List.insertionSort entryBeforeRel entries).take
        (itemsToCheck feed entries.length)) ⟨posted0, 0, none, [], []⟩
      (fun d hd => by simp at hd)
    have hsome := processEntries_some_of_posted now feed pub_ok w hw
      ((List.insertionSort entryBeforeRel entries).take
        (itemsToCheck feed entries.length)) ⟨posted0, 0, none, [], []⟩
      (fun h => absurd rfl h)
    constructor
    · intro fid dopt h
      simp only [procResult] at h
      split at h
      · cases h
        obtain ⟨d, hd⟩ := Option.isSome_iff_exists.mp (hsome (by omega))
        exact ⟨d, hd, hbound d hd⟩
      · cases h
    · intro hsucc
      simp only [procResult] at hsucc ⊢
      rw [if_neg]
      rw [hsucc] at hcount
      simp at hcount
      omega

theorem watermark_strictly_increases_witness :
    ∃ d, (some "2024-01-02T00:00:00+00:00" : Option String) = some d ∧
      strGt d scenarioWatermark = true := by
  have h := watermark_strictly_increases 0 scenarioFeed (fun _ => true)
    [entryDec31, entryJan2] [] scenarioWatermark rfl
  exact h.1 1 (some "2024-01-02T00:00:00+00:00") (by decide)

theorem truncate_boundary_behavior_amended_witness :
    ∃ r, rustTruncate (utf8 "Sentence one. Sentence two.") 15 = some r ∧
      (∀ i, sentenceCut ((utf8 "Sentence one. Sentence two.").take 15) 15
          = some i →
        r = (utf8 "Sentence one. Sentence two.").take i ++ [46]) ∧
      (sentenceCut ((utf8 "Sentence one. Sentence two.").take 15) 15 = none →
        ellipsisBytes <:+ r ∧ charLen r ≤ 15 + 1) :=
  truncate_boundary_behavior_amended (utf8 "Sentence one. Sentence two.") 15
    (by decide) (by decide)
